import Mathlib

/-!
# ping-kong: request plan, metrics and summary

A shallow embedding of `main.go` (the HTTP load tester): `createRequests`,
the metrics update of `performRequest`, the dispatch loop of `runTest` and the
statistics of `writeSummary`.

Modelling conventions

* A Go `string` is modelled as the list of its Unicode code points
  (`List Char`); the strings handled here are valid UTF-8 and the placeholder
  patterns are ASCII, so byte-wise search and code-point-wise search find the
  same occurrences.
* A Go `int` that is only ever compared or used as a loop bound is an `Int`.
  `time.Duration` is an `Int` of nanoseconds; additions on it wrap in 64 bits
  (`wrapInt64`).
* `RequestCount` and the per-code counters are `Nat`: each of them is bounded
  by `len(ResponseTimes)`, itself a Go `int`, so they cannot wrap.
* A Go `map` is an association list read and written at the first entry of a
  key; the iteration order of a Go map is unspecified, the order of the list
  carries no meaning.
-/

namespace PingKong

/-! ## Strings -/

/-- Go's `unicode.IsSpace`: the code points with the Unicode property
White_Space (tab to carriage return, space, NEL, NBSP and the spaces above
Latin-1). -/
def isSpace (c : Char) : Bool :=
  let n := c.toNat
  n == 0x09 || n == 0x0A || n == 0x0B || n == 0x0C || n == 0x0D || n == 0x20
    || n == 0x85 || n == 0xA0 || n == 0x1680 || (0x2000 ≤ n && n ≤ 0x200A)
    || n == 0x2028 || n == 0x2029 || n == 0x202F || n == 0x205F || n == 0x3000

/-- Scanner of `strings.Fields`: `cur` is the field being read (reversed),
`acc` the fields already closed (reversed). -/
def fieldsAux : List Char → List Char → List (List Char) → List (List Char)
  | [], cur, acc => if cur.isEmpty then acc.reverse else (cur.reverse :: acc).reverse
  | c :: cs, cur, acc =>
    if isSpace c then
      if cur.isEmpty then fieldsAux cs [] acc else fieldsAux cs [] (cur.reverse :: acc)
    else fieldsAux cs (c :: cur) acc

/-- Go's `strings.Fields`: the maximal runs of non-space characters. -/
def fields (s : List Char) : List (List Char) := fieldsAux s [] []

/-- Whether the text starts with the pattern (Go's `strings.HasPrefix`). -/
def matchesAt : List Char → List Char → Bool
  | _, [] => true
  | [], _ :: _ => false
  | c :: cs, p :: ps => c == p && matchesAt cs ps

/-- Scanner of `strings.ReplaceAll` for a non-empty `old`: `skip` counts the
characters of a match that remain to be dropped. -/
def replaceAllAux (old new : List Char) : Nat → List Char → List Char
  | _, [] => []
  | skip + 1, _ :: cs => replaceAllAux old new skip cs
  | 0, c :: cs =>
    if matchesAt (c :: cs) old then new ++ replaceAllAux old new (old.length - 1) cs
    else c :: replaceAllAux old new 0 cs

/-- Go's `strings.ReplaceAll(s, old, new)`: the non-overlapping occurrences of
`old`, found left to right, are replaced by `new`. An empty `old` (which never
arises here: every placeholder has at least seven characters) matches before
every character and at the end. -/
def replaceAll (s old new : List Char) : List Char :=
  match old with
  | [] => s.foldr (fun c r => new ++ c :: r) new
  | _ :: _ => replaceAllAux old new 0 s

/-- Go's `fmt.Sprintf("{data%d}", n)` for a non-negative `n`. -/
def placeholder (n : Nat) : List Char :=
  "\x7bdata".toList ++ Nat.toDigits 10 n ++ "\x7d".toList

/-! ## Request plan (`createRequests`) -/

/-- The fields of `Config` read by the request plan. -/
structure Config where
  URL : List Char
  Repeats : Int
  deriving DecidableEq

/-- One element of the plan: the anonymous struct of `createRequests`. -/
structure Request where
  URL : List Char
  DataParts : List (List Char)
  deriving DecidableEq

/-- The inner loop of `createRequests` (`for i, part := range dataParts`),
started at index `i` with the URL obtained so far. -/
def substituteFrom : Nat → List Char → List (List Char) → List Char
  | _, url, [] => url
  | i, url, part :: rest => substituteFrom (i + 1) (replaceAll url (placeholder (i + 1)) part) rest

/-- The body of the loop over the data rows: the descriptor appended for the
row `d`. -/
def rowRequest (config : Config) (d : List Char) : Request :=
  let dataParts := fields d
  { URL := substituteFrom 0 config.URL dataParts, DataParts := dataParts }

/-- A Go loop `for i := 0; i < n; i++` whose body does not read `i`, as a
state transformer iterated `n` times (not at all when `n ≤ 0`). -/
def repeatLoop {σ : Type} (n : Int) (body : σ → σ) (s : σ) : σ :=
  (List.range n.toNat).foldl (fun acc _ => body acc) s

/-- The function `createRequests`. -/
def createRequests (config : Config) (data : List (List Char)) : List Request :=
  if data.length = 0 ∧ config.Repeats > 0 then
    repeatLoop config.Repeats
      (fun requests => requests ++ [{ URL := config.URL, DataParts := [] }]) []
  else
    repeatLoop config.Repeats
      (fun requests => data.foldl (fun requests d => requests ++ [rowRequest config d]) requests) []

/-- The substitution as the specification words it: every occurrence, in the
template itself, of a placeholder `{data<i>}` with `1 ≤ i ≤ parts.length` is
replaced by the `i`-th token; text coming from a token is not searched
again. `findPlaceholder` looks for a placeholder at the head of the text. -/
def findPlaceholder (s : List Char) (parts : List (List Char)) : Nat → Option (Nat × List Char)
  | 0 => none
  | i + 1 =>
    match findPlaceholder s parts i with
    | some r => some r
    | none =>
      if matchesAt s (placeholder (i + 1)) then
        some ((placeholder (i + 1)).length, parts.getD i [])
      else none

/-- Scanner of `specSubstitute`, in the style of `replaceAllAux`. -/
def specSubstituteAux (parts : List (List Char)) : Nat → List Char → List Char
  | _, [] => []
  | skip + 1, _ :: cs => specSubstituteAux parts skip cs
  | 0, c :: cs =>
    match findPlaceholder (c :: cs) parts parts.length with
    | some (len, tok) => tok ++ specSubstituteAux parts (len - 1) cs
    | none => c :: specSubstituteAux parts 0 cs

/-- The template with the placeholders of the template replaced, all at
once. -/
def specSubstitute (url : List Char) (parts : List (List Char)) : List Char :=
  specSubstituteAux parts 0 url

/-- The substitution as a numbered sequence of steps: for `i` from 1 to the
number of tokens, in this order, the occurrences of `{data<i>}` in the URL
obtained so far are replaced by the `i`-th token. -/
def stepwiseSubstitute (url : List Char) (parts : List (List Char)) : List Char :=
  (List.range parts.length).foldl
    (fun u i => replaceAll u (placeholder (i + 1)) (parts.getD i [])) url

/-! ## Metrics (`TestMetrics`, `performRequest`) -/

/-- Largest `int64`, the value of `math.MaxInt64`. -/
def maxInt64 : Int := 2 ^ 63 - 1

/-- Two's-complement wrap-around of a 64-bit signed result. -/
def wrapInt64 (x : Int) : Int := (x + 2 ^ 63) % 2 ^ 64 - 2 ^ 63

/-- Read `m[k]` of a Go map: the value stored under `k`, if any. -/
def mapGet {β : Type} : List (Int × β) → Int → Option β
  | [], _ => none
  | (k', v) :: rest, k => if k' = k then some v else mapGet rest k

/-- Write `m[k] = v` of a Go map. -/
def mapSet {β : Type} : List (Int × β) → Int → β → List (Int × β)
  | [], k, v => [(k, v)]
  | (k', v') :: rest, k, v => if k' = k then (k, v) :: rest else (k', v') :: mapSet rest k v

/-- The keys of a Go map. -/
def mapKeys {β : Type} (m : List (Int × β)) : List Int := m.map Prod.fst

/-- The struct `TestMetrics`, without the two time stamps (they only feed the
`Test Start`, `Test End` and `Test Duration` lines of the summary). Durations
are in nanoseconds. -/
structure TestMetrics where
  RequestCount : Nat
  StatusCodeCounts : List (Int × Nat)
  ResponseTimes : List Int
  ResponseTimesByCode : List (Int × List Int)
  deriving DecidableEq

/-- The metrics created by `runTest`: zero count, two empty maps, no
response time. -/
def emptyMetrics : TestMetrics :=
  { RequestCount := 0, StatusCodeCounts := [], ResponseTimes := [], ResponseTimesByCode := [] }

/-- The section `// metrics update` of `performRequest`, executed under
`metricsMutex`. A missing key reads as the zero value (`0`, `nil`). -/
def recordOutcome (metrics : TestMetrics) (statusCode : Int) (duration : Int) : TestMetrics :=
  { RequestCount := metrics.RequestCount + 1
    StatusCodeCounts :=
      mapSet metrics.StatusCodeCounts statusCode
        ((mapGet metrics.StatusCodeCounts statusCode).getD 0 + 1)
    ResponseTimes := metrics.ResponseTimes ++ [duration]
    ResponseTimesByCode :=
      mapSet metrics.ResponseTimesByCode statusCode
        ((mapGet metrics.ResponseTimesByCode statusCode).getD [] ++ [duration]) }

/-- What the HTTP library answers during one call of `performRequest`; the
library is outside the program, its answer is an input of the model.
`duration` is the measured `time.Since(start)`. -/
inductive HttpAnswer where
  /-- `http.NewRequest` returns an error (invalid method, unparsable URL). -/
  | newRequestError
  /-- `http.DefaultClient.Do` returns an error. -/
  | doError (duration : Int)
  /-- `Do` returns a response; `readOk` tells whether `io.ReadAll` on its
  body succeeded (the error of `io.ReadAll` is discarded). -/
  | response (statusCode : Int) (readOk : Bool) (duration : Int)
  deriving DecidableEq

/-- The status code `performRequest` derives from the answer, when it
derives one. -/
def HttpAnswer.outcome : HttpAnswer → Option (Int × Int)
  | .newRequestError => none
  | .doError duration => some (0, duration)
  | .response statusCode _ duration => some (statusCode, duration)

/-- The effect of `performRequest` on the metrics: an early `return` when the
request cannot be built, otherwise one metrics update with status `0` for an
error of `Do` and `resp.StatusCode` for a response. The request body, the
headers and the log line do not touch the metrics and are left out. -/
def performRequest (answer : HttpAnswer) (metrics : TestMetrics) : TestMetrics :=
  match answer with
  | .newRequestError => metrics
  | .doError duration => recordOutcome metrics 0 duration
  | .response statusCode _ duration => recordOutcome metrics statusCode duration

/-- Sum of the values of a map of counters. -/
def sumCounts (m : List (Int × Nat)) : Nat := (m.map Prod.snd).sum

/-! ## Dispatch loop (`runTest`) -/

/-- Program point of the submission loop of `runTest`. -/
inductive MainPc where
  /-- At the head of `for _, req := range requests`. -/
  | atLoop
  /-- After `wg.Add(1)`, before `sem <- struct{}{}`. -/
  | atSend
  /-- After the send, before the `go` statement. -/
  | atGo
  /-- At `wg.Wait()`. -/
  | atWait
  /-- After `wg.Wait()`: the summary is written. -/
  | finished
  deriving DecidableEq

/-- Program point of one execution unit (the goroutine of `runTest`). -/
inductive UnitPc where
  /-- In `time.Sleep`. -/
  | sleeping
  /-- In `performRequest`. -/
  | requesting
  /-- `performRequest` has returned, the deferred calls have not run. -/
  | returned
  /-- The deferred `<-sem` has run, the deferred `wg.Done()` has not. -/
  | released
  /-- The goroutine has ended. -/
  | done
  deriving DecidableEq

/-- State of a run: the rest of the plan, the submission loop, the number of
elements in the channel `sem`, the counter of `wg`, the goroutines started so
far and the shared metrics. -/
structure RunState where
  pending : List Request
  pc : MainPc
  sem : Nat
  wg : Nat
  units : List (Request × UnitPc)
  metrics : TestMetrics
  deriving DecidableEq

/-- One scheduling decision: the submission loop advances, or the unit number
`i` does. -/
inductive Action where
  | main
  | wake (i : Nat)
  | perform (i : Nat) (answer : HttpAnswer)
  | release (i : Nat)
  | unitDone (i : Nat)
  deriving DecidableEq

/-- The state in which `runTest` enters its loop. -/
def initRun (requests : List Request) : RunState :=
  { pending := requests, pc := .atLoop, sem := 0, wg := 0, units := [], metrics := emptyMetrics }

/-- Moves unit `i` from program point `src` to `dst`; `none` when the unit is
not at `src`. -/
def moveUnit (units : List (Request × UnitPc)) (i : Nat) (src dst : UnitPc) :
    Option (List (Request × UnitPc)) :=
  match units.get? i with
  | some (req, pc) => if pc = src then some (units.set i (req, dst)) else none
  | none => none

/-- One step of the run with a channel `sem` of capacity `C`; `none` when the
chosen thread cannot move (it is blocked, or not at that point). -/
def step (C : Nat) (s : RunState) : Action → Option RunState
  | .main =>
    match s.pc with
    | .atLoop =>
      match s.pending with
      | [] => some { s with pc := .atWait }
      | _ :: _ => some { s with wg := s.wg + 1, pc := .atSend }
    | .atSend => if s.sem < C then some { s with sem := s.sem + 1, pc := .atGo } else none
    | .atGo =>
      match s.pending with
      | [] => none
      | req :: rest =>
        some { s with pending := rest, units := s.units ++ [(req, .sleeping)], pc := .atLoop }
    | .atWait => if s.wg = 0 then some { s with pc := .finished } else none
    | .finished => none
  | .wake i =>
    match moveUnit s.units i .sleeping .requesting with
    | some units => some { s with units := units }
    | none => none
  | .perform i answer =>
    match moveUnit s.units i .requesting .returned with
    | some units => some { s with units := units, metrics := performRequest answer s.metrics }
    | none => none
  | .release i =>
    match moveUnit s.units i .returned .released with
    | some units => if 0 < s.sem then some { s with units := units, sem := s.sem - 1 } else none
    | none => none
  | .unitDone i =>
    match moveUnit s.units i .released .done with
    | some units => if 0 < s.wg then some { s with units := units, wg := s.wg - 1 } else none
    | none => none

/-- A schedule run from a state. -/
def exec (C : Nat) : RunState → List Action → Option RunState
  | s, [] => some s
  | s, a :: rest =>
    match step C s a with
    | some s' => exec C s' rest
    | none => none

/-- A unit holds a slot of `sem` from its start until its deferred `<-sem`. -/
def holdsSlot (u : Request × UnitPc) : Bool :=
  match u.2 with
  | .sleeping | .requesting | .returned => true
  | .released | .done => false

/-- Number of execution units in flight. -/
def inFlight (s : RunState) : Nat := s.units.countP holdsSlot

/-- The slot acquired by the submission loop for the unit it is about to
start. -/
def heldByMain (s : RunState) : Nat := if s.pc = .atGo then 1 else 0

/-- The calls of `performRequest` of a schedule, in order. -/
def performed : List Action → List HttpAnswer
  | [] => []
  | .perform _ answer :: rest => answer :: performed rest
  | _ :: rest => performed rest

/-! ## Summary (`writeSummary`) -/

/-- `Duration.Milliseconds`: integer division by `1e6`, towards zero. -/
def milliseconds (d : Int) : Int := Int.tdiv d 1000000

/-- Go's `/` on `time.Duration`: a run-time panic (`none`) when the divisor is
zero, otherwise the quotient rounded towards zero. -/
def goDiv (a b : Int) : Option Int :=
  if b = 0 then none else some (wrapInt64 (Int.tdiv a b))

/-- The three variables of the first loop of `writeSummary`. -/
structure Scan where
  totalResponseTime : Int
  shortestResponse : Int
  longestResponse : Int
  deriving DecidableEq

/-- The body of `for _, responseTime := range metrics.ResponseTimes`. -/
def scanStep (s : Scan) (responseTime : Int) : Scan :=
  { totalResponseTime := wrapInt64 (s.totalResponseTime + responseTime)
    shortestResponse := if responseTime < s.shortestResponse then responseTime else s.shortestResponse
    longestResponse := if responseTime > s.longestResponse then responseTime else s.longestResponse }

/-- The first loop of `writeSummary`. -/
def scanResponseTimes (responseTimes : List Int) : Scan :=
  responseTimes.foldl scanStep
    { totalResponseTime := 0, shortestResponse := maxInt64, longestResponse := 0 }

/-- The inner loop `for _, t := range times { total += t }`. -/
def totalOf (times : List Int) : Int :=
  times.foldl (fun total t => wrapInt64 (total + t)) 0

/-- The loop over `metrics.ResponseTimesByCode`: the average of every code,
`none` when a division panics. -/
def averageByCode : List (Int × List Int) → Option (List (Int × Int))
  | [] => some []
  | (code, times) :: rest =>
    match goDiv (totalOf times) times.length with
    | none => none
    | some avg =>
      match averageByCode rest with
      | none => none
      | some tail => some ((code, avg) :: tail)

/-- What `writeSummary` computes and prints: the variables of its first part
and the lines that depend on the metrics. -/
structure Summary where
  averageResponseTime : Int
  shortestResponse : Int
  longestResponse : Int
  averageResponseTimeByCode : List (Int × Int)
  totalRequestsLine : String
  statusCodeLines : List String
  averageLine : String
  shortestLine : String
  longestLine : String
  byCodeLines : List String
  deriving DecidableEq

/-- The line printed for an average that has no value. -/
def noValueLine : String := "- Average: - ms\n"

/-- The line printed for a numeric average of `ms` milliseconds. -/
def numericLine (ms : Int) : String := "- Average: " ++ toString ms ++ "ms\n"

/-- The printing part of `writeSummary`, from the values computed before it:
the variables and the lines that depend on the metrics. -/
def renderSummary (metrics : TestMetrics) (scan : Scan) (averageResponseTime : Int)
    (byCode : List (Int × Int)) : Summary :=
  { averageResponseTime := averageResponseTime
    shortestResponse := scan.shortestResponse
    longestResponse := scan.longestResponse
    averageResponseTimeByCode := byCode
    totalRequestsLine := "Total Requests: " ++ toString metrics.RequestCount ++ "\n"
    statusCodeLines :=
      metrics.StatusCodeCounts.map
        (fun e => "- " ++ toString e.1 ++ ": " ++ toString e.2 ++ "\n")
    averageLine :=
      if averageResponseTime = 0 then noValueLine
      else numericLine (milliseconds averageResponseTime)
    shortestLine := "- Shortest: " ++ toString (milliseconds scan.shortestResponse) ++ "ms\n"
    longestLine := "- Longest: " ++ toString (milliseconds scan.longestResponse) ++ "ms\n"
    byCodeLines :=
      byCode.map (fun e => "- " ++ toString e.1 ++ ": " ++ toString (milliseconds e.2) ++ "ms\n") }

/-- The function `writeSummary`; `none` is a run-time panic on a division by
zero. When no response time was recorded the average stays `0` and the map of
the averages by code stays empty. -/
def writeSummary (metrics : TestMetrics) : Option Summary :=
  let scan := scanResponseTimes metrics.ResponseTimes
  if metrics.ResponseTimes.length ≠ 0 then
    match goDiv scan.totalResponseTime metrics.ResponseTimes.length with
    | none => none
    | some averageResponseTime =>
      match averageByCode metrics.ResponseTimesByCode with
      | none => none
      | some byCode => some (renderSummary metrics scan averageResponseTime byCode)
  else some (renderSummary metrics scan 0 [])


/-- A sequence of calls of `performRequest`, in the order in which they take
`metricsMutex`. -/
def performAll (metrics : TestMetrics) (answers : List HttpAnswer) : TestMetrics :=
  answers.foldl (fun m a => performRequest a m) metrics

/-- The unit has not executed its deferred `wg.Done()`. -/
def notDone (u : Request × UnitPc) : Bool :=
  match u.2 with
  | .done => false
  | _ => true

/-- The call of `performRequest` of the unit has returned. -/
def pastRequest (u : Request × UnitPc) : Bool :=
  match u.2 with
  | .returned | .released | .done => true
  | .sleeping | .requesting => false

/-- The `wg.Add(1)` of the submission loop that no started unit accounts for
yet. -/
def addedByMain (s : RunState) : Nat :=
  match s.pc with
  | .atSend | .atGo => 1
  | _ => 0

/-- Invariant of the run over the plan `requests` with `C` slots. -/
structure RunInv (C : Nat) (requests : List Request) (s : RunState) : Prop where
  slots : inFlight s + heldByMain s = s.sem
  bound : s.sem ≤ C
  plan : s.units.map Prod.fst ++ s.pending = requests
  group : s.wg = s.units.countP notDone + addedByMain s
  drained : s.pc = .atWait ∨ s.pc = .finished → s.pending = []
  waited : s.pc = .finished → s.wg = 0

/-- The schedule that runs the units one after the other: the submission loop
starts unit `k`, the unit sleeps, calls `performRequest` with the next answer
and ends, before the loop goes on; the last two steps leave the loop and
return from `wg.Wait()`. -/
def sequentialSchedule : Nat → List HttpAnswer → List Action
  | _, [] => [.main, .main]
  | k, answer :: rest =>
    [.main, .main, .main, .wake k, .perform k answer, .release k, .unitDone k] ++
      sequentialSchedule (k + 1) rest

/-- Invariant of the metrics: the three counts agree, both maps have distinct
keys, and under every key the list of durations is as long as the counter,
which is not zero. -/
structure MetricsInv (m : TestMetrics) : Prop where
  count_sum : m.RequestCount = sumCounts m.StatusCodeCounts
  count_len : m.RequestCount = m.ResponseTimes.length
  keys_counts : (mapKeys m.StatusCodeCounts).Nodup
  keys_times : (mapKeys m.ResponseTimesByCode).Nodup
  per_code : ∀ code, (mapGet m.ResponseTimesByCode code).map List.length =
    mapGet m.StatusCodeCounts code
  positive : ∀ code, mapGet m.StatusCodeCounts code ≠ some 0
  nonempty : ∀ e ∈ m.ResponseTimesByCode, e.2 ≠ []


/-! ## Lemmas on the plan -/

theorem foldl_append_singleton {α β : Type} (f : α → β) (l : List α) (acc : List β) :
    l.foldl (fun a d => a ++ [f d]) acc = acc ++ l.map f := by
  induction l generalizing acc with
  | nil => simp
  | cons x xs ih => simp [ih]

theorem repeatLoop_natCast {σ : Type} (n : Nat) (body : σ → σ) (s : σ) :
    repeatLoop (n : Int) body s = body^[n] s := by
  unfold repeatLoop
  rw [Int.toNat_natCast]
  induction n with
  | zero => rfl
  | succ k ih => rw [List.range_succ, List.foldl_append, ih, Function.iterate_succ_apply']; rfl

theorem iterate_append_length {β : Type} (block : List β) (n : Nat) :
    ((fun l => l ++ block)^[n] []).length = n * block.length := by
  induction n with
  | zero => simp
  | succ k ih => rw [Function.iterate_succ_apply', List.length_append, ih]; ring

theorem iterate_append_getElem? {β : Type} (block : List β) (n r j : Nat)
    (hr : r < n) (hj : j < block.length) :
    ((fun l => l ++ block)^[n] [])[r * block.length + j]? = some (block.get ⟨j, hj⟩) := by
  induction n with
  | zero => omega
  | succ k ih =>
    rw [Function.iterate_succ_apply']
    have hlen := iterate_append_length block k
    by_cases hk : r < k
    · have hlt : r * block.length + j < ((fun l => l ++ block)^[k] []).length := by
        rw [hlen]
        calc r * block.length + j < r * block.length + block.length := by omega
          _ = (r + 1) * block.length := by ring
          _ ≤ k * block.length := Nat.mul_le_mul_right _ hk
      rw [List.getElem?_append_left hlt]
      exact ih hk
    · have hrk : r = k := by omega
      subst hrk
      rw [List.getElem?_append_right (by rw [hlen]; omega), hlen]
      simp [List.getElem?_eq_getElem hj]

theorem mem_iterate_append {β : Type} (block : List β) (n : Nat) (x : β) :
    x ∈ (fun l => l ++ block)^[n] [] ↔ 0 < n ∧ x ∈ block := by
  induction n with
  | zero => simp
  | succ k ih =>
    rw [Function.iterate_succ_apply', List.mem_append, ih]
    constructor
    · rintro (⟨_, h⟩ | h)
      · exact ⟨Nat.succ_pos k, h⟩
      · exact ⟨Nat.succ_pos k, h⟩
    · rintro ⟨_, h⟩
      exact Or.inr h

theorem createRequests_of_data (config : Config) (R : Nat) (hR : config.Repeats = R)
    (data : List (List Char)) (hdata : data ≠ []) :
    createRequests config data = (fun l => l ++ data.map (rowRequest config))^[R] [] := by
  unfold createRequests
  have hlen : ¬ (data.length = 0 ∧ config.Repeats > 0) := by
    intro h; exact hdata (List.length_eq_zero.mp h.1)
  rw [if_neg hlen, hR, repeatLoop_natCast]
  congr 1
  funext requests
  exact foldl_append_singleton _ _ _

theorem iterate_append_singleton {β : Type} (x : β) (n : Nat) :
    (fun l => l ++ [x])^[n] [] = List.replicate n x := by
  induction n with
  | zero => rfl
  | succ k ih => rw [Function.iterate_succ_apply', ih, List.replicate_succ']

theorem substituteFrom_eq_foldl (parts : List (List Char)) (i : Nat) (url : List Char) :
    substituteFrom i url parts =
      (List.range parts.length).foldl
        (fun u k => replaceAll u (placeholder (i + k + 1)) (parts.getD k [])) url := by
  induction parts generalizing i url with
  | nil => rfl
  | cons p ps ih =>
    rw [substituteFrom, ih, List.length_cons, List.range_succ_eq_map, List.foldl_cons,
      List.foldl_map]
    simp only [Nat.add_zero, List.getD_cons_zero, List.getD_cons_succ]
    congr 1
    funext u k
    have hk : i + 1 + k + 1 = i + (k + 1) + 1 := by omega
    rw [hk]

theorem specSubstituteAux_single (tok : List Char) (s : List Char) (skip : Nat) :
    specSubstituteAux [tok] skip s = replaceAllAux (placeholder 1) tok skip s := by
  induction s generalizing skip with
  | nil => cases skip <;> rfl
  | cons c cs ih =>
    cases skip with
    | succ k => exact ih k
    | zero =>
      by_cases hm : matchesAt (c :: cs) (placeholder 1) = true
      · simp only [specSubstituteAux, replaceAllAux, findPlaceholder, List.length_singleton, hm,
          if_true, List.getD_cons_zero, ih]
      · simp only [specSubstituteAux, replaceAllAux, findPlaceholder, List.length_singleton, hm,
          if_false, ih]
        rfl

theorem specSubstitute_single (url tok : List Char) :
    specSubstitute url [tok] = substituteFrom 0 url [tok] :=
  specSubstituteAux_single tok url 0

/-! ## Theorems on the plan -/

/-- C1: with a non-empty data list of `N` rows and a repeat count `R ≥ 0`,
`createRequests` returns exactly `R * N` descriptors and the descriptor at
position `r * N + j` is the one built from row `j` (repeats outer, rows inner,
in list order); with `R = 0` the plan is empty. -/
theorem createRequests_repeat_then_row (url : List Char) (R : Nat)
    (data : List (List Char)) (hdata : data ≠ []) :
    (createRequests ⟨url, R⟩ data).length = R * data.length ∧
    (∀ r j, r < R → (hj : j < data.length) →
      (createRequests ⟨url, R⟩ data)[r * data.length + j]? =
        some (rowRequest ⟨url, R⟩ (data.get ⟨j, hj⟩))) ∧
    createRequests ⟨url, 0⟩ data = [] := by
  refine ⟨?_, ?_, ?_⟩
  · rw [createRequests_of_data ⟨url, R⟩ R rfl data hdata, iterate_append_length,
      List.length_map]
  · intro r j hr hj
    rw [createRequests_of_data ⟨url, R⟩ R rfl data hdata]
    have hj2 : j < (data.map (rowRequest ⟨url, R⟩)).length := by simpa using hj
    have h := iterate_append_getElem? (data.map (rowRequest ⟨url, R⟩)) R r j hr hj2
    simp only [List.length_map] at h
    rw [h]
    simp
  · have h := createRequests_of_data ⟨url, 0⟩ 0 rfl data hdata
    rw [h]; rfl

/-- Witness of C1: two repeats over the rows `a b` and `c`. -/
theorem createRequests_repeat_then_row_witness :
    (createRequests ⟨"h/\x7bdata1\x7d".toList, 2⟩ ["a b".toList, "c".toList]).length = 2 * 2 ∧
    (createRequests ⟨"h/\x7bdata1\x7d".toList, 2⟩ ["a b".toList, "c".toList])[1 * 2 + 1]? =
      some ⟨"h/c".toList, ["c".toList]⟩ :=
  ⟨(createRequests_repeat_then_row "h/\x7bdata1\x7d".toList 2 ["a b".toList, "c".toList]
      (by decide)).1,
   ((createRequests_repeat_then_row "h/\x7bdata1\x7d".toList 2 ["a b".toList, "c".toList]
      (by decide)).2.1 1 1 (by decide) (by decide)).trans (by decide)⟩

/-- C2: with an empty data list and a repeat count `R ≥ 0`, `createRequests`
returns exactly `R` descriptors, each with the URL template unchanged and no
substitution parts. -/
theorem createRequests_empty_data (url : List Char) (R : Nat) :
    createRequests ⟨url, R⟩ [] = List.replicate R { URL := url, DataParts := [] } ∧
    (createRequests ⟨url, R⟩ []).length = R ∧
    createRequests ⟨url, 0⟩ [] = [] := by
  have key : ∀ n : Nat, createRequests ⟨url, n⟩ [] =
      List.replicate n { URL := url, DataParts := [] } := by
    intro n
    unfold createRequests
    by_cases hn : (n : Int) > 0
    · rw [if_pos ⟨rfl, hn⟩, repeatLoop_natCast, iterate_append_singleton]
    · have h0 : n = 0 := by omega
      subst h0
      rw [if_neg (fun h => hn h.2)]
      rfl
  refine ⟨key R, ?_, key 0⟩
  rw [key R, List.length_replicate]

/-- C3, as stated, fails: with the template `{data1}` and the row
`{data2} b` the code produces the URL `b`, whereas replacing the placeholders
that occur in the template gives `{data2}`. -/
theorem substitution_rescans_tokens :
    createRequests ⟨"\x7bdata1\x7d".toList, 1⟩ ["\x7bdata2\x7d b".toList] =
      [⟨"b".toList, ["\x7bdata2\x7d".toList, "b".toList]⟩] ∧
    specSubstitute "\x7bdata1\x7d".toList (fields "\x7bdata2\x7d b".toList) =
      "\x7bdata2\x7d".toList ∧
    ¬ (∀ (config : Config) (d : List Char),
        (rowRequest config d).URL = specSubstitute config.URL (fields d)) := by
  refine ⟨by decide, by decide, ?_⟩
  intro h
  exact absurd (h ⟨"\x7bdata1\x7d".toList, 1⟩ "\x7bdata2\x7d b".toList) (by decide)

/-- C3, amended: the descriptor that `createRequests` emits for a row carries
the whitespace-separated tokens of the row and the URL obtained from the
template by the steps `i = 1, 2, ...` in this order, step `i` replacing every
occurrence of `{data<i>}` in the URL obtained so far by the `i`-th token; every
descriptor of a plan with data is of this form; for a row with a single token
the URL is the template with the occurrences of `{data1}` in the template
replaced; and the two examples of the specification give `http://x/a/b` and
the plan `[(http://h/x, [x])]`. -/
theorem createRequests_row_descriptor (url : List Char) (R : Nat)
    (data : List (List Char)) (d : List Char) (hd : d ∈ data) (hR : 0 < R) :
    rowRequest ⟨url, R⟩ d ∈ createRequests ⟨url, R⟩ data ∧
    (∀ r ∈ createRequests ⟨url, R⟩ data, ∃ row ∈ data,
      r = { URL := stepwiseSubstitute url (fields row), DataParts := fields row }) ∧
    (rowRequest ⟨url, R⟩ d).DataParts = fields d ∧
    (rowRequest ⟨url, R⟩ d).URL = stepwiseSubstitute url (fields d) ∧
    (∀ tok, fields d = [tok] → (rowRequest ⟨url, R⟩ d).URL = specSubstitute url (fields d)) ∧
    createRequests ⟨"http://x/\x7bdata1\x7d/\x7bdata2\x7d".toList, 1⟩ ["a b".toList] =
      [{ URL := "http://x/a/b".toList, DataParts := ["a".toList, "b".toList] }] ∧
    createRequests ⟨"http://h/\x7bdata1\x7d".toList, 1⟩ ["x".toList] =
      [{ URL := "http://h/x".toList, DataParts := ["x".toList] }] := by
  have hdata : data ≠ [] := List.ne_nil_of_mem hd
  have hrow : ∀ row, rowRequest ⟨url, R⟩ row =
      { URL := stepwiseSubstitute url (fields row), DataParts := fields row } := by
    intro row
    unfold rowRequest stepwiseSubstitute
    simp only [substituteFrom_eq_foldl, Nat.zero_add]
  refine ⟨?_, ?_, rfl, ?_, ?_, by decide, by decide⟩
  · rw [createRequests_of_data ⟨url, R⟩ R rfl data hdata, mem_iterate_append]
    exact ⟨hR, List.mem_map_of_mem _ hd⟩
  · intro r hr
    rw [createRequests_of_data ⟨url, R⟩ R rfl data hdata, mem_iterate_append] at hr
    obtain ⟨row, hrow_mem, rfl⟩ := List.mem_map.mp hr.2
    exact ⟨row, hrow_mem, hrow row⟩
  · rw [hrow d]
  · intro tok htok
    show substituteFrom 0 url (fields d) = specSubstitute url (fields d)
    rw [htok, specSubstitute_single]

/-- Witness of C3 (amended): the row of the counterexample, whose first token
is itself a placeholder. -/
theorem createRequests_row_descriptor_witness :
    (⟨"b".toList, ["\x7bdata2\x7d".toList, "b".toList]⟩ : Request) ∈
      createRequests ⟨"\x7bdata1\x7d".toList, 1⟩ ["\x7bdata2\x7d b".toList] :=
  (createRequests_row_descriptor "\x7bdata1\x7d".toList 1 ["\x7bdata2\x7d b".toList]
    "\x7bdata2\x7d b".toList (by decide) (by decide)).1


/-! ## Lemmas on the dispatch loop -/

theorem countP_set_add {α : Type} (p : α → Bool) (l : List α) (i : Nat) (h : i < l.length)
    (a : α) :
    (l.set i a).countP p + (if p (l.get ⟨i, h⟩) then 1 else 0) =
      l.countP p + (if p a then 1 else 0) := by
  induction l generalizing i with
  | nil => simp at h
  | cons x xs ih =>
    cases i with
    | zero =>
      simp only [List.set_cons_zero, List.countP_cons, List.get_eq_getElem,
        List.getElem_cons_zero]
      omega
    | succ j =>
      have hj : j < xs.length := by simpa using h
      have := ih j hj
      simp only [List.set_cons_succ, List.countP_cons, List.get_eq_getElem,
        List.getElem_cons_succ] at this ⊢
      omega

theorem moveUnit_some {units units' : List (Request × UnitPc)} {i : Nat} {src dst : UnitPc}
    (h : moveUnit units i src dst = some units') :
    ∃ (req : Request) (hi : i < units.length),
      units.get ⟨i, hi⟩ = (req, src) ∧ units' = units.set i (req, dst) := by
  unfold moveUnit at h
  cases hget : units.get? i with
  | none => rw [hget] at h; simp at h
  | some u =>
    obtain ⟨req, pc⟩ := u
    rw [hget] at h
    simp only at h
    by_cases hpc : pc = src
    · rw [if_pos hpc] at h
      obtain ⟨hi, hu⟩ := List.get?_eq_some.mp hget
      refine ⟨req, hi, ?_, ?_⟩
      · rw [hu, hpc]
      · exact (Option.some.inj h).symm
    · rw [if_neg hpc] at h; simp at h

theorem moveUnit_countP {units units' : List (Request × UnitPc)} {i : Nat} {src dst : UnitPc}
    (p : Request × UnitPc → Bool) (hp : ∀ r r' pc, p (r, pc) = p (r', pc))
    (h : moveUnit units i src dst = some units') :
    units'.countP p + (if p (⟨[], []⟩, src) then 1 else 0) =
      units.countP p + (if p (⟨[], []⟩, dst) then 1 else 0) := by
  obtain ⟨req, hi, hget, rfl⟩ := moveUnit_some h
  have := countP_set_add p units i hi (req, dst)
  rw [hget, hp req ⟨[], []⟩ src, hp req ⟨[], []⟩ dst] at this
  exact this

theorem set_map_fst (l : List (Request × UnitPc)) (i : Nat) (hi : i < l.length)
    (req : Request) (src dst : UnitPc) (hget : l.get ⟨i, hi⟩ = (req, src)) :
    (l.set i (req, dst)).map Prod.fst = l.map Prod.fst := by
  induction l generalizing i with
  | nil => simp at hi
  | cons x xs ih =>
    cases i with
    | zero =>
      simp only [List.get_eq_getElem, List.getElem_cons_zero] at hget
      simp [hget]
    | succ j =>
      have hj : j < xs.length := by simpa using hi
      simp only [List.get_eq_getElem, List.getElem_cons_succ] at hget
      simp only [List.set_cons_succ, List.map_cons]
      rw [ih j hj (by simpa using hget)]

theorem moveUnit_map_fst {units units' : List (Request × UnitPc)} {i : Nat} {src dst : UnitPc}
    (h : moveUnit units i src dst = some units') :
    units'.map Prod.fst = units.map Prod.fst := by
  obtain ⟨req, hi, hget, rfl⟩ := moveUnit_some h
  exact set_map_fst units i hi req src dst hget

theorem holdsSlot_congr (r r' : Request) (pc : UnitPc) : holdsSlot (r, pc) = holdsSlot (r', pc) :=
  rfl

theorem notDone_congr (r r' : Request) (pc : UnitPc) : notDone (r, pc) = notDone (r', pc) := by
  cases pc <;> rfl

theorem pastRequest_congr (r r' : Request) (pc : UnitPc) :
    pastRequest (r, pc) = pastRequest (r', pc) := rfl

theorem runInv_init (C : Nat) (requests : List Request) :
    RunInv C requests (initRun requests) := by
  refine ⟨?_, ?_, ?_, ?_, ?_, ?_⟩ <;> simp [initRun, inFlight, heldByMain, addedByMain]

theorem runInv_step {C : Nat} {requests : List Request} {s s' : RunState} {a : Action}
    (inv : RunInv C requests s) (h : step C s a = some s') : RunInv C requests s' := by
  obtain ⟨slots, bound, plan, group, drained, waited⟩ := inv
  unfold inFlight heldByMain at slots
  unfold addedByMain at group
  cases a with
  | main =>
    simp only [step] at h
    cases hpc : s.pc with
    | atLoop =>
      rw [hpc] at h slots group
      cases hpend : s.pending with
      | nil =>
        rw [hpend] at h
        simp only [Option.some.injEq] at h
        subst h
        refine ⟨?_, ?_, ?_, ?_, ?_, ?_⟩ <;>
          simp_all [inFlight, heldByMain, addedByMain]
      | cons r rest =>
        rw [hpend] at h
        simp only [Option.some.injEq] at h
        subst h
        refine ⟨?_, ?_, ?_, ?_, ?_, ?_⟩ <;>
          simp_all [inFlight, heldByMain, addedByMain]
    | atSend =>
      rw [hpc] at h slots group
      simp only at h
      by_cases hlt : s.sem < C
      · rw [if_pos hlt] at h
        simp only [Option.some.injEq] at h
        subst h
        refine ⟨?_, ?_, ?_, ?_, ?_, ?_⟩ <;>
          simp_all [inFlight, heldByMain, addedByMain]
        omega
      · rw [if_neg hlt] at h; simp at h
    | atGo =>
      rw [hpc] at h slots group
      cases hpend : s.pending with
      | nil => rw [hpend] at h; simp at h
      | cons r rest =>
        rw [hpend] at h plan
        simp only [Option.some.injEq] at h
        subst h
        refine ⟨?_, ?_, ?_, ?_, ?_, ?_⟩ <;>
          simp_all [inFlight, heldByMain, addedByMain, holdsSlot, notDone]
    | atWait =>
      rw [hpc] at h slots group
      simp only at h
      by_cases hz : s.wg = 0
      · rw [if_pos hz] at h
        simp only [Option.some.injEq] at h
        subst h
        refine ⟨?_, ?_, ?_, ?_, ?_, ?_⟩ <;>
          simp_all [inFlight, heldByMain, addedByMain]
      · rw [if_neg hz] at h; simp at h
    | finished => rw [hpc] at h; simp at h
  | wake i =>
    simp only [step] at h
    cases hm : moveUnit s.units i .sleeping .requesting with
    | none => rw [hm] at h; simp at h
    | some units =>
      rw [hm] at h
      simp only [Option.some.injEq] at h
      subst h
      have h1 := moveUnit_countP holdsSlot holdsSlot_congr hm
      have h2 := moveUnit_countP notDone notDone_congr hm
      have h3 := moveUnit_map_fst hm
      simp [holdsSlot, notDone] at h1 h2
      refine ⟨?_, bound, ?_, ?_, drained, waited⟩
      · show units.countP holdsSlot + (if s.pc = .atGo then 1 else 0) = s.sem
        rw [h1]; exact slots
      · show units.map Prod.fst ++ s.pending = requests
        rw [h3]; exact plan
      · show s.wg = units.countP notDone + addedByMain s
        rw [h2]; exact group
  | perform i answer =>
    simp only [step] at h
    cases hm : moveUnit s.units i .requesting .returned with
    | none => rw [hm] at h; simp at h
    | some units =>
      rw [hm] at h
      simp only [Option.some.injEq] at h
      subst h
      have h1 := moveUnit_countP holdsSlot holdsSlot_congr hm
      have h2 := moveUnit_countP notDone notDone_congr hm
      have h3 := moveUnit_map_fst hm
      simp [holdsSlot, notDone] at h1 h2
      refine ⟨?_, bound, ?_, ?_, drained, waited⟩
      · show units.countP holdsSlot + (if s.pc = .atGo then 1 else 0) = s.sem
        rw [h1]; exact slots
      · show units.map Prod.fst ++ s.pending = requests
        rw [h3]; exact plan
      · show s.wg = units.countP notDone + addedByMain s
        rw [h2]; exact group
  | release i =>
    simp only [step] at h
    cases hm : moveUnit s.units i .returned .released with
    | none => rw [hm] at h; simp at h
    | some units =>
      rw [hm] at h
      simp only at h
      by_cases hpos : 0 < s.sem
      · rw [if_pos hpos] at h
        simp only [Option.some.injEq] at h
        subst h
        have h1 := moveUnit_countP holdsSlot holdsSlot_congr hm
        have h2 := moveUnit_countP notDone notDone_congr hm
        have h3 := moveUnit_map_fst hm
        simp [holdsSlot, notDone] at h1 h2
        refine ⟨?_, ?_, ?_, ?_, drained, waited⟩
        · show units.countP holdsSlot + (if s.pc = .atGo then 1 else 0) = s.sem - 1
          omega
        · show s.sem - 1 ≤ C
          omega
        · show units.map Prod.fst ++ s.pending = requests
          rw [h3]; exact plan
        · show s.wg = units.countP notDone + addedByMain s
          rw [h2]; exact group
      · rw [if_neg hpos] at h; simp at h
  | unitDone i =>
    simp only [step] at h
    cases hm : moveUnit s.units i .released .done with
    | none => rw [hm] at h; simp at h
    | some units =>
      rw [hm] at h
      simp only at h
      by_cases hpos : 0 < s.wg
      · rw [if_pos hpos] at h
        simp only [Option.some.injEq] at h
        subst h
        have h1 := moveUnit_countP holdsSlot holdsSlot_congr hm
        have h2 := moveUnit_countP notDone notDone_congr hm
        have h3 := moveUnit_map_fst hm
        simp [holdsSlot, notDone] at h1 h2
        refine ⟨?_, bound, ?_, ?_, drained, ?_⟩
        · show units.countP holdsSlot + (if s.pc = .atGo then 1 else 0) = s.sem
          rw [h1]; exact slots
        · show units.map Prod.fst ++ s.pending = requests
          rw [h3]; exact plan
        · show s.wg - 1 = units.countP notDone + addedByMain s
          unfold addedByMain
          omega
        · intro hf
          have := waited hf
          omega
      · rw [if_neg hpos] at h; simp at h

theorem runInv_exec {C : Nat} {requests : List Request} (actions : List Action) {s s' : RunState}
    (inv : RunInv C requests s) (h : exec C s actions = some s') : RunInv C requests s' := by
  induction actions generalizing s with
  | nil =>
    simp only [exec, Option.some.injEq] at h
    subst h; exact inv
  | cons a rest ih =>
    unfold exec at h
    cases hs : step C s a with
    | none => rw [hs] at h; simp at h
    | some s1 =>
      rw [hs] at h
      exact ih (runInv_step inv hs) h

theorem step_trace {C : Nat} {s s' : RunState} {a : Action} (h : step C s a = some s') :
    s'.metrics = performAll s.metrics (performed [a]) ∧
    s'.units.countP pastRequest = s.units.countP pastRequest + (performed [a]).length := by
  cases a with
  | main =>
    simp only [step] at h
    cases hpc : s.pc with
    | atLoop =>
      rw [hpc] at h
      cases hpend : s.pending with
      | nil =>
        rw [hpend] at h
        simp only [Option.some.injEq] at h
        subst h
        exact ⟨rfl, rfl⟩
      | cons r rest =>
        rw [hpend] at h
        simp only [Option.some.injEq] at h
        subst h
        exact ⟨rfl, rfl⟩
    | atSend =>
      rw [hpc] at h
      simp only at h
      by_cases hlt : s.sem < C
      · rw [if_pos hlt] at h
        simp only [Option.some.injEq] at h
        subst h
        exact ⟨rfl, rfl⟩
      · rw [if_neg hlt] at h; simp at h
    | atGo =>
      rw [hpc] at h
      cases hpend : s.pending with
      | nil => rw [hpend] at h; simp at h
      | cons r rest =>
        rw [hpend] at h
        simp only [Option.some.injEq] at h
        subst h
        refine ⟨rfl, ?_⟩
        simp [performed, pastRequest]
    | atWait =>
      rw [hpc] at h
      simp only at h
      by_cases hz : s.wg = 0
      · rw [if_pos hz] at h
        simp only [Option.some.injEq] at h
        subst h
        exact ⟨rfl, rfl⟩
      · rw [if_neg hz] at h; simp at h
    | finished => rw [hpc] at h; simp at h
  | wake i =>
    simp only [step] at h
    cases hm : moveUnit s.units i .sleeping .requesting with
    | none => rw [hm] at h; simp at h
    | some units =>
      rw [hm] at h
      simp only [Option.some.injEq] at h
      subst h
      have h1 := moveUnit_countP pastRequest pastRequest_congr hm
      simp [pastRequest] at h1
      exact ⟨rfl, by simpa [performed] using h1⟩
  | perform i answer =>
    simp only [step] at h
    cases hm : moveUnit s.units i .requesting .returned with
    | none => rw [hm] at h; simp at h
    | some units =>
      rw [hm] at h
      simp only [Option.some.injEq] at h
      subst h
      have h1 := moveUnit_countP pastRequest pastRequest_congr hm
      simp [pastRequest] at h1
      exact ⟨rfl, by simpa [performed] using h1⟩
  | release i =>
    simp only [step] at h
    cases hm : moveUnit s.units i .returned .released with
    | none => rw [hm] at h; simp at h
    | some units =>
      rw [hm] at h
      simp only at h
      by_cases hpos : 0 < s.sem
      · rw [if_pos hpos] at h
        simp only [Option.some.injEq] at h
        subst h
        have h1 := moveUnit_countP pastRequest pastRequest_congr hm
        simp [pastRequest] at h1
        exact ⟨rfl, by simpa [performed] using h1⟩
      · rw [if_neg hpos] at h; simp at h
  | unitDone i =>
    simp only [step] at h
    cases hm : moveUnit s.units i .released .done with
    | none => rw [hm] at h; simp at h
    | some units =>
      rw [hm] at h
      simp only at h
      by_cases hpos : 0 < s.wg
      · rw [if_pos hpos] at h
        simp only [Option.some.injEq] at h
        subst h
        have h1 := moveUnit_countP pastRequest pastRequest_congr hm
        simp [pastRequest] at h1
        exact ⟨rfl, by simpa [performed] using h1⟩
      · rw [if_neg hpos] at h; simp at h

theorem performed_cons (a : Action) (rest : List Action) :
    performed (a :: rest) = performed [a] ++ performed rest := by
  cases a <;> simp [performed]

theorem performAll_append (m : TestMetrics) (xs ys : List HttpAnswer) :
    performAll m (xs ++ ys) = performAll (performAll m xs) ys := by
  simp [performAll, List.foldl_append]

theorem exec_trace {C : Nat} (actions : List Action) {s s' : RunState}
    (h : exec C s actions = some s') :
    s'.metrics = performAll s.metrics (performed actions) ∧
    s'.units.countP pastRequest = s.units.countP pastRequest + (performed actions).length := by
  induction actions generalizing s with
  | nil =>
    simp only [exec, Option.some.injEq] at h
    subst h
    exact ⟨rfl, rfl⟩
  | cons a rest ih =>
    unfold exec at h
    cases hs : step C s a with
    | none => rw [hs] at h; simp at h
    | some s1 =>
      rw [hs] at h
      obtain ⟨hm1, hc1⟩ := step_trace hs
      obtain ⟨hm2, hc2⟩ := ih h
      rw [performed_cons, performAll_append, List.length_append]
      exact ⟨by rw [hm2, hm1], by rw [hc2, hc1]; omega⟩

theorem countP_notDone_zero (units : List (Request × UnitPc))
    (h : units.countP notDone = 0) :
    (∀ u ∈ units, u.2 = .done) ∧ units.countP pastRequest = units.length ∧
      units.countP holdsSlot = 0 := by
  induction units with
  | nil => simp
  | cons u us ih =>
    obtain ⟨r, pc⟩ := u
    rw [List.countP_cons] at h
    have hus : us.countP notDone = 0 := by omega
    obtain ⟨h1, h2, h3⟩ := ih hus
    rw [hus] at h
    cases pc <;> simp [notDone] at h
    refine ⟨?_, ?_, ?_⟩
    · intro v hv
      rcases List.mem_cons.mp hv with rfl | hv
      · rfl
      · exact h1 v hv
    · simp [List.countP_cons, pastRequest, h2]
    · simp [List.countP_cons, holdsSlot, h3]

theorem performAll_requestCount (answers : List HttpAnswer) (m : TestMetrics) :
    (performAll m answers).RequestCount =
      m.RequestCount + (answers.filter (fun a => a.outcome.isSome)).length := by
  induction answers generalizing m with
  | nil => rfl
  | cons a rest ih =>
    have hstep : performAll m (a :: rest) = performAll (performRequest a m) rest := rfl
    rw [hstep, ih]
    cases a <;> simp [performRequest, recordOutcome, HttpAnswer.outcome] <;> omega

theorem finished_state {C : Nat} {requests : List Request} {s : RunState}
    (inv : RunInv C requests s) (hfin : s.pc = .finished) :
    s.units.countP notDone = 0 ∧ s.units.map Prod.fst = requests := by
  have hwg := inv.waited hfin
  have hgroup := inv.group
  have hpend := inv.drained (Or.inr hfin)
  have hplan := inv.plan
  rw [hpend, List.append_nil] at hplan
  exact ⟨by omega, hplan⟩


theorem exec_append (C : Nat) (xs ys : List Action) (s : RunState) :
    exec C s (xs ++ ys) = (exec C s xs).bind (fun s' => exec C s' ys) := by
  induction xs generalizing s with
  | nil => rfl
  | cons a rest ih =>
    simp only [List.cons_append, exec]
    cases step C s a with
    | none => rfl
    | some s1 => exact ih s1

theorem moveUnit_append_last (units : List (Request × UnitPc)) (req : Request)
    (src dst : UnitPc) :
    moveUnit (units ++ [(req, src)]) units.length src dst = some (units ++ [(req, dst)]) := by
  unfold moveUnit
  have hget : (units ++ [(req, src)]).get? units.length = some (req, src) := by
    simp
  rw [hget]
  simp

theorem exec_sequentialSchedule (C : Nat) (hC : 1 ≤ C) (requests : List Request) :
    ∀ (answers : List HttpAnswer) (units : List (Request × UnitPc)) (metrics : TestMetrics),
      answers.length = requests.length →
      exec C { pending := requests, pc := .atLoop, sem := 0, wg := 0, units := units,
               metrics := metrics }
          (sequentialSchedule units.length answers) =
        some { pending := [], pc := .finished, sem := 0, wg := 0,
               units := units ++ requests.map (fun r => (r, UnitPc.done)),
               metrics := performAll metrics answers } := by
  induction requests with
  | nil =>
    intro answers units metrics hlen
    have hnil : answers = [] := List.length_eq_zero.mp hlen
    subst hnil
    simp [sequentialSchedule, exec, step, performAll]
  | cons r rest ih =>
    intro answers units metrics hlen
    cases answers with
    | nil => simp at hlen
    | cons a others =>
      have hlen' : others.length = rest.length := by simpa using hlen
      have hC' : 0 < C := hC
      have hunits : (units ++ [(r, UnitPc.done)]).length = units.length + 1 := by simp
      have hrec := ih others (units ++ [(r, UnitPc.done)]) (performRequest a metrics) hlen'
      rw [hunits] at hrec
      rw [sequentialSchedule, exec_append]
      have hfirst : exec C ⟨r :: rest, .atLoop, 0, 0, units, metrics⟩
          [.main, .main, .main, .wake units.length, .perform units.length a,
            .release units.length, .unitDone units.length] =
          some ⟨rest, .atLoop, 0, 0, units ++ [(r, UnitPc.done)], performRequest a metrics⟩ := by
        simp [exec, step, hC', moveUnit_append_last]
      rw [hfirst, Option.bind, hrec]
      simp [performAll]


/-! ## Theorems on `performRequest` and the dispatch loop -/

/-- C4, as stated, fails: when `http.NewRequest` returns an error,
`performRequest` returns before the metrics update, so the call adds no
outcome, and a complete run over a plan of one descriptor ends with
`RequestCount = 0`; and a response whose body cannot be read is recorded under
its own status code, not under `0`. -/
theorem performRequest_skips_unbuilt_request :
    (performRequest .newRequestError emptyMetrics).RequestCount = 0 ∧
    (performRequest .newRequestError emptyMetrics).ResponseTimes = [] ∧
    (exec 1 (initRun [⟨"http://h/%zz".toList, ["%zz".toList]⟩])
        [.main, .main, .main, .wake 0, .perform 0 .newRequestError, .release 0, .unitDone 0,
          .main, .main]).map (fun s => (s.pc, s.metrics.RequestCount, s.metrics.ResponseTimes)) =
      some (.finished, 0, []) ∧
    (performRequest (.response 200 false 7) emptyMetrics).StatusCodeCounts = [(200, 1)] ∧
    ¬ (∀ (answer : HttpAnswer) (metrics : TestMetrics),
        (performRequest answer metrics).RequestCount = metrics.RequestCount + 1) := by
  refine ⟨rfl, rfl, by decide, by decide, ?_⟩
  intro h
  exact absurd (h .newRequestError emptyMetrics) (by decide)

/-- C4, amended: a call of `performRequest` whose request could be built
applies exactly one outcome (`RequestCount` grows by one, one duration is
appended), with status `0` when `Do` fails and the status of the response
otherwise; a call whose request could not be built leaves the metrics
unchanged. When a run over a plan has finished, every descriptor of the plan
has been given to one unit, in plan order, every unit has ended,
`performRequest` has been called as many times as the plan has descriptors and
`RequestCount` is the number of those calls whose request could be built, at
most the length of the plan. -/
theorem performRequest_records_built_requests (C : Nat) (requests : List Request)
    (actions : List Action) (s : RunState)
    (hexec : exec C (initRun requests) actions = some s) (hfin : s.pc = .finished) :
    (∀ answer metrics statusCode duration, answer.outcome = some (statusCode, duration) →
      performRequest answer metrics = recordOutcome metrics statusCode duration ∧
      (performRequest answer metrics).RequestCount = metrics.RequestCount + 1 ∧
      (performRequest answer metrics).ResponseTimes = metrics.ResponseTimes ++ [duration]) ∧
    (∀ duration, HttpAnswer.outcome (.doError duration) = some (0, duration)) ∧
    (∀ statusCode readOk duration,
      HttpAnswer.outcome (.response statusCode readOk duration) = some (statusCode, duration)) ∧
    (∀ metrics, performRequest .newRequestError metrics = metrics) ∧
    s.units.map Prod.fst = requests ∧
    (∀ u ∈ s.units, u.2 = .done) ∧
    (performed actions).length = requests.length ∧
    s.metrics = performAll emptyMetrics (performed actions) ∧
    s.metrics.RequestCount = ((performed actions).filter (fun a => a.outcome.isSome)).length ∧
    s.metrics.RequestCount ≤ requests.length := by
  have inv := runInv_exec actions (runInv_init C requests) hexec
  obtain ⟨hnd, hmap⟩ := finished_state inv hfin
  obtain ⟨hdone, hpast, _⟩ := countP_notDone_zero s.units hnd
  obtain ⟨hmetrics, hcount⟩ := exec_trace actions hexec
  have hlen : (performed actions).length = requests.length := by
    have h0 : (initRun requests).units.countP pastRequest = 0 := rfl
    rw [h0, hpast, Nat.zero_add] at hcount
    rw [← hcount, ← hmap, List.length_map]
  have hrc : s.metrics.RequestCount =
      ((performed actions).filter (fun a => a.outcome.isSome)).length := by
    rw [hmetrics, performAll_requestCount]
    show 0 + _ = _
    omega
  refine ⟨?_, fun _ => rfl, fun _ _ _ => rfl, fun _ => rfl, hmap, hdone, hlen, hmetrics, hrc, ?_⟩
  · intro answer metrics statusCode duration hout
    cases answer with
    | newRequestError => simp [HttpAnswer.outcome] at hout
    | doError d =>
      simp only [HttpAnswer.outcome, Option.some.injEq, Prod.mk.injEq] at hout
      obtain ⟨rfl, rfl⟩ := hout
      exact ⟨rfl, rfl, rfl⟩
    | response code ok d =>
      simp only [HttpAnswer.outcome, Option.some.injEq, Prod.mk.injEq] at hout
      obtain ⟨rfl, rfl⟩ := hout
      exact ⟨rfl, rfl, rfl⟩
  · rw [hrc, ← hlen]
    exact List.length_filter_le _ _

/-- Witness of C4 (amended): a finished run over two descriptors, the first
request cannot be built, the second gets a transport error. -/
theorem performRequest_records_built_requests_witness :
    (exec 1 (initRun [⟨"http://h/%zz".toList, ["%zz".toList]⟩, ⟨"http://h/x".toList, ["x".toList]⟩])
        [.main, .main, .main, .wake 0, .perform 0 .newRequestError, .release 0, .main, .main,
          .main, .unitDone 0, .wake 1, .perform 1 (.doError 7), .release 1, .unitDone 1,
          .main, .main]).map (fun s => s.metrics) =
      some { RequestCount := 1, StatusCodeCounts := [(0, 1)], ResponseTimes := [7],
             ResponseTimesByCode := [(0, [7])] } ∧
    (performed [Action.main, .main, .main, .wake 0, .perform 0 .newRequestError, .release 0,
          .main, .main, .main, .unitDone 0, .wake 1, .perform 1 (.doError 7), .release 1,
          .unitDone 1, .main, .main]).length = 2 :=
  ⟨by decide,
   (performRequest_records_built_requests 1
      [⟨"http://h/%zz".toList, ["%zz".toList]⟩, ⟨"http://h/x".toList, ["x".toList]⟩]
      [.main, .main, .main, .wake 0, .perform 0 .newRequestError, .release 0, .main, .main,
        .main, .unitDone 0, .wake 1, .perform 1 (.doError 7), .release 1, .unitDone 1,
        .main, .main]
      { pending := [], pc := .finished, sem := 0, wg := 0,
        units := [(⟨"http://h/%zz".toList, ["%zz".toList]⟩, .done),
                  (⟨"http://h/x".toList, ["x".toList]⟩, .done)],
        metrics := { RequestCount := 1, StatusCodeCounts := [(0, 1)], ResponseTimes := [7],
                     ResponseTimesByCode := [(0, [7])] } }
      (by decide) rfl).2.2.2.2.2.2.1⟩

/-- C8: with a concurrency ceiling `C ≥ 1`, in every state that the dispatch
loop of `runTest` can reach, under any interleaving, the number of units in
flight (started, deferred `<-sem` not yet run) is at most `C`: the units in
flight plus the slot taken for the unit about to be started are exactly the
elements of `sem`, whose number never exceeds its capacity; a unit is started
only from a state with fewer than `C` units in flight, when the run has
finished every slot has been released, and the run can finish. -/
theorem inFlight_le_concurrency (C : Nat) (hC : 1 ≤ C) (requests : List Request)
    (actions : List Action) (s : RunState)
    (hexec : exec C (initRun requests) actions = some s) :
    inFlight s ≤ C ∧
    inFlight s + heldByMain s = s.sem ∧
    s.sem ≤ C ∧
    (∀ s', step C s .main = some s' → inFlight s' = inFlight s + 1 →
      heldByMain s = 1 ∧ inFlight s < C) ∧
    (s.pc = .finished → s.sem = 0 ∧ inFlight s = 0) ∧
    (∃ schedule s', exec C (initRun requests) schedule = some s' ∧ s'.pc = .finished) := by
  have inv := runInv_exec actions (runInv_init C requests) hexec
  have hslots := inv.slots
  have hbound := inv.bound
  refine ⟨by omega, hslots, hbound, ?_, ?_, ?_⟩
  · intro s' hstep hgrow
    have inv' := runInv_step inv hstep
    have hslots' := inv'.slots
    have hbound' := inv'.bound
    refine ⟨?_, by omega⟩
    unfold heldByMain
    by_cases hgo : s.pc = .atGo
    · rw [if_pos hgo]
    · exfalso
      simp only [step] at hstep
      unfold inFlight at hgrow
      cases hpc : s.pc with
      | atLoop =>
        rw [hpc] at hstep
        cases hpend : s.pending with
        | nil =>
          rw [hpend] at hstep
          simp only [Option.some.injEq] at hstep
          subst hstep
          simp at hgrow
        | cons r rest =>
          rw [hpend] at hstep
          simp only [Option.some.injEq] at hstep
          subst hstep
          simp at hgrow
      | atSend =>
        rw [hpc] at hstep
        simp only at hstep
        by_cases hlt : s.sem < C
        · rw [if_pos hlt] at hstep
          simp only [Option.some.injEq] at hstep
          subst hstep
          simp at hgrow
        · rw [if_neg hlt] at hstep; simp at hstep
      | atGo => exact hgo hpc
      | atWait =>
        rw [hpc] at hstep
        simp only at hstep
        by_cases hz : s.wg = 0
        · rw [if_pos hz] at hstep
          simp only [Option.some.injEq] at hstep
          subst hstep
          simp at hgrow
        · rw [if_neg hz] at hstep; simp at hstep
      | finished => rw [hpc] at hstep; simp at hstep
  · intro hfin
    obtain ⟨hnd, _⟩ := finished_state inv hfin
    obtain ⟨_, _, hslot0⟩ := countP_notDone_zero s.units hnd
    have hheld : heldByMain s = 0 := by
      unfold heldByMain
      rw [hfin]; rfl
    have hin : inFlight s = 0 := hslot0
    exact ⟨by omega, hin⟩
  · exact ⟨sequentialSchedule 0 (requests.map (fun _ => HttpAnswer.doError 0)), _,
      exec_sequentialSchedule C hC requests _ [] emptyMetrics (by simp), rfl⟩

/-- Witness of C8: `C = 2` and five descriptors. After six steps of the
submission loop two units are in flight; its next send blocks until a unit
releases its slot. -/
theorem inFlight_le_concurrency_witness :
    (exec 2 (initRun (List.replicate 5 ⟨"http://h".toList, []⟩))
        (List.replicate 6 .main)).map inFlight = some 2 ∧
    exec 2 (initRun (List.replicate 5 ⟨"http://h".toList, []⟩)) (List.replicate 8 .main) = none ∧
    inFlight
      { pending := List.replicate 3 ⟨"http://h".toList, []⟩, pc := .atLoop, sem := 2, wg := 2,
        units := [(⟨"http://h".toList, []⟩, .sleeping), (⟨"http://h".toList, []⟩, .sleeping)],
        metrics := emptyMetrics } ≤ 2 :=
  ⟨by decide, by decide,
   (inFlight_le_concurrency 2 (by decide) (List.replicate 5 ⟨"http://h".toList, []⟩)
      (List.replicate 6 .main)
      { pending := List.replicate 3 ⟨"http://h".toList, []⟩, pc := .atLoop, sem := 2, wg := 2,
        units := [(⟨"http://h".toList, []⟩, .sleeping), (⟨"http://h".toList, []⟩, .sleeping)],
        metrics := emptyMetrics }
      (by decide)).1⟩


/-! ## Lemmas on the metrics -/

theorem mapGet_mapSet {β : Type} (m : List (Int × β)) (k k' : Int) (v : β) :
    mapGet (mapSet m k v) k' = if k = k' then some v else mapGet m k' := by
  induction m with
  | nil => simp [mapGet, mapSet]
  | cons e rest ih =>
    obtain ⟨key, val⟩ := e
    by_cases h1 : key = k
    · subst h1
      by_cases h2 : key = k'
      · simp [mapGet, mapSet, h2]
      · simp [mapGet, mapSet, h2]
    · by_cases h2 : key = k'
      · subst h2
        have h3 : ¬ k = key := fun h => h1 h.symm
        simp [mapGet, mapSet, h1, h3]
      · simp [mapGet, mapSet, h1, h2, ih]

theorem mem_mapKeys_iff {β : Type} (m : List (Int × β)) (k : Int) :
    k ∈ mapKeys m ↔ (mapGet m k).isSome := by
  induction m with
  | nil => simp [mapKeys, mapGet]
  | cons e rest ih =>
    obtain ⟨key, val⟩ := e
    unfold mapKeys at ih ⊢
    by_cases h : key = k
    · simp [mapGet, h]
    · have h' : ¬ k = key := fun h2 => h h2.symm
      simp [mapGet, h, h', ih]

theorem mapKeys_mapSet_nodup {β : Type} (m : List (Int × β)) (k : Int) (v : β)
    (h : (mapKeys m).Nodup) : (mapKeys (mapSet m k v)).Nodup := by
  induction m with
  | nil => simp [mapKeys, mapSet]
  | cons e rest ih =>
    obtain ⟨key, val⟩ := e
    have hcons : key ∉ mapKeys rest ∧ (mapKeys rest).Nodup := by
      simpa [mapKeys] using h
    by_cases h1 : key = k
    · subst h1
      simpa [mapKeys, mapSet] using h
    · have hrest := ih hcons.2
      have hnot : key ∉ mapKeys (mapSet rest k v) := by
        rw [mem_mapKeys_iff, mapGet_mapSet]
        have h1' : ¬ k = key := fun h2 => h1 h2.symm
        rw [if_neg h1', ← mem_mapKeys_iff]
        exact hcons.1
      have hgoal : (key :: mapKeys (mapSet rest k v)).Nodup := List.nodup_cons.mpr ⟨hnot, hrest⟩
      simpa [mapKeys, mapSet, h1] using hgoal

theorem mem_mapSet {β : Type} (m : List (Int × β)) (k : Int) (v : β) (e : Int × β)
    (h : e ∈ mapSet m k v) : e ∈ m ∨ e = (k, v) := by
  induction m with
  | nil => simpa [mapSet] using h
  | cons x rest ih =>
    obtain ⟨key, val⟩ := x
    by_cases h1 : key = k
    · simp only [mapSet, h1, if_true, List.mem_cons] at h
      rcases h with h | h
      · exact Or.inr h
      · exact Or.inl (List.mem_cons_of_mem _ h)
    · simp only [mapSet, h1, if_false, List.mem_cons] at h
      rcases h with h | h
      · exact Or.inl (h ▸ List.mem_cons_self _ _)
      · rcases ih h with h | h
        · exact Or.inl (List.mem_cons_of_mem _ h)
        · exact Or.inr h

theorem sumCounts_mapSet (m : List (Int × Nat)) (k : Int) :
    sumCounts (mapSet m k ((mapGet m k).getD 0 + 1)) = sumCounts m + 1 := by
  induction m with
  | nil => simp [sumCounts, mapSet, mapGet]
  | cons e rest ih =>
    obtain ⟨key, val⟩ := e
    unfold sumCounts at ih ⊢
    by_cases h : key = k
    · simp [mapSet, mapGet, h]
      omega
    · simp only [mapSet, mapGet, h, if_false, List.map_cons, List.sum_cons]
      rw [ih]
      omega

theorem metricsInv_empty : MetricsInv emptyMetrics := by
  refine ⟨rfl, rfl, ?_, ?_, ?_, ?_, ?_⟩ <;> simp [emptyMetrics, mapKeys, mapGet]

theorem metricsInv_recordOutcome (m : TestMetrics) (statusCode duration : Int)
    (inv : MetricsInv m) : MetricsInv (recordOutcome m statusCode duration) := by
  obtain ⟨hsum, hlen, hk1, hk2, hper, hpos, hne⟩ := inv
  refine ⟨?_, ?_, ?_, ?_, ?_, ?_, ?_⟩
  · show m.RequestCount + 1 = sumCounts (mapSet _ _ _)
    rw [sumCounts_mapSet, hsum]
  · show m.RequestCount + 1 = (m.ResponseTimes ++ [duration]).length
    rw [List.length_append, hlen]; rfl
  · exact mapKeys_mapSet_nodup _ _ _ hk1
  · exact mapKeys_mapSet_nodup _ _ _ hk2
  · intro code
    show (mapGet (mapSet _ _ _) code).map List.length = mapGet (mapSet _ _ _) code
    rw [mapGet_mapSet, mapGet_mapSet]
    by_cases h : statusCode = code
    · subst h
      rw [if_pos rfl, if_pos rfl]
      have := hper statusCode
      cases hget : mapGet m.ResponseTimesByCode statusCode with
      | none => rw [hget] at this; simp [← this]
      | some ts => rw [hget] at this; simp [← this]
    · rw [if_neg h, if_neg h]
      exact hper code
  · intro code
    show mapGet (mapSet _ _ _) code ≠ some 0
    rw [mapGet_mapSet]
    by_cases h : statusCode = code
    · rw [if_pos h]; simp
    · rw [if_neg h]; exact hpos code
  · intro e he
    rcases mem_mapSet _ _ _ e he with h | h
    · exact hne e h
    · rw [h]; simp

theorem metricsInv_performRequest (answer : HttpAnswer) (m : TestMetrics)
    (inv : MetricsInv m) : MetricsInv (performRequest answer m) := by
  cases answer with
  | newRequestError => exact inv
  | doError d => exact metricsInv_recordOutcome m 0 d inv
  | response code ok d => exact metricsInv_recordOutcome m code d inv

theorem metricsInv_performAll (answers : List HttpAnswer) (m : TestMetrics)
    (inv : MetricsInv m) : MetricsInv (performAll m answers) := by
  induction answers generalizing m with
  | nil => exact inv
  | cons a rest ih => exact ih _ (metricsInv_performRequest a m inv)

theorem averageByCode_isSome (byCode : List (Int × List Int))
    (h : ∀ e ∈ byCode, e.2 ≠ []) :
    ∃ avgs, averageByCode byCode = some avgs ∧ mapKeys avgs = mapKeys byCode := by
  induction byCode with
  | nil => exact ⟨[], rfl, rfl⟩
  | cons e rest ih =>
    obtain ⟨code, times⟩ := e
    obtain ⟨tail, htail, hkeys⟩ := ih (fun x hx => h x (List.mem_cons_of_mem _ hx))
    have hne : times ≠ [] := h (code, times) (List.mem_cons_self _ _)
    have hlen : (times.length : Int) ≠ 0 := by
      have : times.length ≠ 0 := fun h0 => hne (List.length_eq_zero.mp h0)
      exact_mod_cast this
    refine ⟨(code, wrapInt64 (Int.tdiv (totalOf times) times.length)) :: tail, ?_, ?_⟩
    · simp only [averageByCode, goDiv, if_neg hlen, htail]
    · unfold mapKeys at hkeys ⊢
      simp [hkeys]

/-! ## Theorems on the metrics -/

/-- C5: starting from the empty metrics of `runTest`, after any finite
sequence of calls of `performRequest` (any status codes, any durations),
`RequestCount` equals the sum of the values of `StatusCodeCounts` and the
length of `ResponseTimes`; the same holds for the metrics in every state that
a run of `runTest` reaches, under any interleaving of its units. -/
theorem requestCount_eq_sum_eq_length (answers : List HttpAnswer) :
    ((performAll emptyMetrics answers).RequestCount =
        sumCounts (performAll emptyMetrics answers).StatusCodeCounts ∧
      (performAll emptyMetrics answers).RequestCount =
        (performAll emptyMetrics answers).ResponseTimes.length) ∧
    (∀ (C : Nat) (requests : List Request) (actions : List Action) (s : RunState),
      exec C (initRun requests) actions = some s →
        s.metrics.RequestCount = sumCounts s.metrics.StatusCodeCounts ∧
        s.metrics.RequestCount = s.metrics.ResponseTimes.length) := by
  have inv := metricsInv_performAll answers emptyMetrics metricsInv_empty
  refine ⟨⟨inv.count_sum, inv.count_len⟩, ?_⟩
  intro C requests actions s hexec
  have htrace := (exec_trace actions hexec).1
  have hinit : (initRun requests).metrics = emptyMetrics := rfl
  rw [hinit] at htrace
  have inv' := metricsInv_performAll (performed actions) emptyMetrics metricsInv_empty
  rw [← htrace] at inv'
  exact ⟨inv'.count_sum, inv'.count_len⟩

/-- Witness of C5: the metrics after three calls, and in the middle of a run
with two units, one of which has recorded its outcome. -/
theorem requestCount_eq_sum_eq_length_witness :
    sumCounts (performAll emptyMetrics
        [.response 200 true 5, .doError 9, .response 200 true 7]).StatusCodeCounts = 3 ∧
    (performAll emptyMetrics
        [.response 200 true 5, .doError 9, .response 200 true 7]).ResponseTimes.length = 3 ∧
    (1 : Nat) = sumCounts [((404 : Int), 1)] :=
  ⟨((requestCount_eq_sum_eq_length
      [.response 200 true 5, .doError 9, .response 200 true 7]).1.1).symm.trans (by decide),
   ((requestCount_eq_sum_eq_length
      [.response 200 true 5, .doError 9, .response 200 true 7]).1.2).symm.trans (by decide),
   ((requestCount_eq_sum_eq_length []).2 2
      [⟨"http://h/a".toList, ["a".toList]⟩, ⟨"http://h/b".toList, ["b".toList]⟩]
      [.main, .main, .main, .main, .main, .main, .wake 1, .perform 1 (.response 404 true 8)]
      { pending := [], pc := .atLoop, sem := 2, wg := 2,
        units := [(⟨"http://h/a".toList, ["a".toList]⟩, .sleeping),
                  (⟨"http://h/b".toList, ["b".toList]⟩, .returned)],
        metrics := { RequestCount := 1, StatusCodeCounts := [(404, 1)], ResponseTimes := [8],
                     ResponseTimesByCode := [(404, [8])] } }
      (by decide)).1⟩

/-- C10: in every metrics state reachable from the empty one by calls of
`performRequest`, `StatusCodeCounts` and `ResponseTimesByCode` have the same
keys (each key once), under every key the list of durations is non-empty and
as long as the counter, and the per-code averages of `writeSummary` are
computed without a division by zero. -/
theorem responseTimesByCode_matches_counts (answers : List HttpAnswer) :
    (∀ code, code ∈ mapKeys (performAll emptyMetrics answers).StatusCodeCounts ↔
      code ∈ mapKeys (performAll emptyMetrics answers).ResponseTimesByCode) ∧
    (mapKeys (performAll emptyMetrics answers).StatusCodeCounts).Nodup ∧
    (mapKeys (performAll emptyMetrics answers).ResponseTimesByCode).Nodup ∧
    (∀ code ∈ mapKeys (performAll emptyMetrics answers).StatusCodeCounts,
      ∃ times, mapGet (performAll emptyMetrics answers).ResponseTimesByCode code = some times ∧
        times ≠ [] ∧
        mapGet (performAll emptyMetrics answers).StatusCodeCounts code = some times.length) ∧
    (∀ e ∈ (performAll emptyMetrics answers).ResponseTimesByCode,
      goDiv (totalOf e.2) e.2.length ≠ none) ∧
    (∃ avgs, averageByCode (performAll emptyMetrics answers).ResponseTimesByCode = some avgs ∧
      mapKeys avgs = mapKeys (performAll emptyMetrics answers).ResponseTimesByCode) ∧
    (writeSummary (performAll emptyMetrics answers)).isSome = true := by
  have inv := metricsInv_performAll answers emptyMetrics metricsInv_empty
  generalize performAll emptyMetrics answers = m at inv ⊢
  obtain ⟨avgs, havg, hkeys⟩ := averageByCode_isSome m.ResponseTimesByCode inv.nonempty
  refine ⟨?_, inv.keys_counts, inv.keys_times, ?_, ?_, ⟨avgs, havg, hkeys⟩, ?_⟩
  · intro code
    rw [mem_mapKeys_iff, mem_mapKeys_iff, ← inv.per_code code]
    cases mapGet m.ResponseTimesByCode code <;> simp
  · intro code hcode
    rw [mem_mapKeys_iff] at hcode
    have hper := inv.per_code code
    have hpos := inv.positive code
    cases hget : mapGet m.ResponseTimesByCode code with
    | none => rw [hget] at hper; rw [← hper] at hcode; simp at hcode
    | some times =>
      rw [hget] at hper
      refine ⟨times, rfl, ?_, hper.symm⟩
      intro hnil
      rw [hnil] at hper
      exact hpos hper.symm
  · intro e he
    have hne := inv.nonempty e he
    have hlen : (e.2.length : Int) ≠ 0 := by
      have : e.2.length ≠ 0 := fun h0 => hne (List.length_eq_zero.mp h0)
      exact_mod_cast this
    simp [goDiv, hlen]
  · unfold writeSummary
    by_cases hz : m.ResponseTimes.length ≠ 0
    · have hz' : (m.ResponseTimes.length : Int) ≠ 0 := by exact_mod_cast hz
      simp only [hz, if_true, ne_eq, not_false_eq_true, goDiv, if_neg hz', havg]
      rfl
    · simp only [hz, if_false]
      rfl


/-! ## Lemmas on the summary -/

theorem wrapInt64_of_range (x : Int) (h0 : 0 ≤ x) (h1 : x ≤ maxInt64) : wrapInt64 x = x := by
  unfold wrapInt64
  unfold maxInt64 at h1
  omega

theorem scan_total (ts : List Int) (s : Scan) (h0 : 0 ≤ s.totalResponseTime)
    (hts : ∀ t ∈ ts, 0 ≤ t) (hsum : s.totalResponseTime + ts.sum ≤ maxInt64) :
    (ts.foldl scanStep s).totalResponseTime = s.totalResponseTime + ts.sum := by
  induction ts generalizing s with
  | nil => simp
  | cons t rest ih =>
    have ht : 0 ≤ t := hts t (List.mem_cons_self _ _)
    have hrest : ∀ u ∈ rest, 0 ≤ u := fun u hu => hts u (List.mem_cons_of_mem _ hu)
    have hrest_sum : 0 ≤ rest.sum := List.sum_nonneg hrest
    rw [List.sum_cons] at hsum
    have hw : wrapInt64 (s.totalResponseTime + t) = s.totalResponseTime + t :=
      wrapInt64_of_range _ (by omega) (by omega)
    rw [List.foldl_cons, ih (scanStep s t)]
    · simp only [scanStep, hw, List.sum_cons]
      omega
    · simp only [scanStep, hw]
      omega
    · exact hrest
    · simp only [scanStep, hw]
      omega

theorem scan_shortest (ts : List Int) (s : Scan) :
    (ts.foldl scanStep s).shortestResponse ≤ s.shortestResponse ∧
    (∀ t ∈ ts, (ts.foldl scanStep s).shortestResponse ≤ t) ∧
    ((ts.foldl scanStep s).shortestResponse = s.shortestResponse ∨
      (ts.foldl scanStep s).shortestResponse ∈ ts) := by
  induction ts generalizing s with
  | nil => simp
  | cons t rest ih =>
    obtain ⟨h1, h2, h3⟩ := ih (scanStep s t)
    have hstep : (scanStep s t).shortestResponse =
        if t < s.shortestResponse then t else s.shortestResponse := rfl
    rw [List.foldl_cons]
    refine ⟨?_, ?_, ?_⟩
    · rw [hstep] at h1
      split_ifs at h1 <;> omega
    · intro u hu
      rcases List.mem_cons.mp hu with rfl | hu
      · rw [hstep] at h1
        split_ifs at h1 <;> omega
      · exact h2 u hu
    · rcases h3 with h3 | h3
      · rw [h3, hstep]
        split_ifs
        · exact Or.inr (List.mem_cons_self _ _)
        · exact Or.inl rfl
      · exact Or.inr (List.mem_cons_of_mem _ h3)

theorem scan_longest (ts : List Int) (s : Scan) :
    s.longestResponse ≤ (ts.foldl scanStep s).longestResponse ∧
    (∀ t ∈ ts, t ≤ (ts.foldl scanStep s).longestResponse) ∧
    ((ts.foldl scanStep s).longestResponse = s.longestResponse ∨
      (ts.foldl scanStep s).longestResponse ∈ ts) := by
  induction ts generalizing s with
  | nil => simp
  | cons t rest ih =>
    obtain ⟨h1, h2, h3⟩ := ih (scanStep s t)
    have hstep : (scanStep s t).longestResponse =
        if t > s.longestResponse then t else s.longestResponse := rfl
    rw [List.foldl_cons]
    refine ⟨?_, ?_, ?_⟩
    · rw [hstep] at h1
      split_ifs at h1 <;> omega
    · intro u hu
      rcases List.mem_cons.mp hu with rfl | hu
      · rw [hstep] at h1
        split_ifs at h1 <;> omega
      · exact h2 u hu
    · rcases h3 with h3 | h3
      · rw [h3, hstep]
        split_ifs
        · exact Or.inr (List.mem_cons_self _ _)
        · exact Or.inl rfl
      · exact Or.inr (List.mem_cons_of_mem _ h3)

theorem digitChar_ne_space (k : Nat) (hk : k < 10) : Nat.digitChar k ≠ Char.ofNat 32 := by
  interval_cases k <;> decide

theorem toDigitsCore_no_space (fuel n : Nat) (acc : List Char) (hacc : Char.ofNat 32 ∉ acc) :
    Char.ofNat 32 ∉ Nat.toDigitsCore 10 fuel n acc := by
  induction fuel generalizing n acc with
  | zero => simpa [Nat.toDigitsCore] using hacc
  | succ f ih =>
    have hd : Char.ofNat 32 ∉ Nat.digitChar (n % 10) :: acc := by
      intro h
      rcases List.mem_cons.mp h with h | h
      · exact digitChar_ne_space (n % 10) (Nat.mod_lt _ (by decide)) h.symm
      · exact hacc h
    unfold Nat.toDigitsCore
    simp only
    split_ifs
    · exact hd
    · exact ih _ _ hd

theorem natRepr_no_space (n : Nat) : Char.ofNat 32 ∉ (Nat.repr n).data := by
  unfold Nat.repr Nat.toDigits
  exact toDigitsCore_no_space _ _ _ (by simp)

theorem intToString_no_space (i : Int) : Char.ofNat 32 ∉ (toString i).data := by
  cases i with
  | ofNat n => exact natRepr_no_space n
  | negSucc n =>
    show Char.ofNat 32 ∉ ("-" ++ Nat.repr (n + 1)).data
    rw [String.data_append]
    intro h
    rcases List.mem_append.mp h with h | h
    · simp at h
    · exact natRepr_no_space _ h

theorem numericLine_ne_noValueLine (ms : Int) : numericLine ms ≠ noValueLine := by
  intro h
  have hdata := congrArg String.data h
  unfold numericLine noValueLine at hdata
  rw [String.data_append, String.data_append] at hdata
  have hcancel : (toString ms).data ++ "ms\n".data = "- ms\n".data :=
    @List.append_cancel_left _ "- Average: ".data _ _ hdata
  have hmem : Char.ofNat 32 ∈ (toString ms).data ++ "ms\n".data := by
    rw [hcancel]; decide
  rcases List.mem_append.mp hmem with h1 | h1
  · exact intToString_no_space ms h1
  · revert h1; decide

theorem intDiv_div (S n k : Int) (hS : 0 ≤ S) (hn : 0 ≤ n) (hk : 0 ≤ k) :
    S / n / k = S / (n * k) := by
  lift S to ℕ using hS
  lift n to ℕ using hn
  lift k to ℕ using hk
  norm_cast
  exact Nat.div_div_eq_div_mul _ _ _

/-! ## Theorems on the summary -/

/-- C6, the code at the failing input: after one request whose measured
duration is zero nanoseconds one duration is recorded and the average is the
number `0`, yet `writeSummary` prints the marker `- Average: - ms`, because
`0` is also the value `averageResponseTime` keeps when nothing was computed.
The same summary prints the shortest, the longest and the average of code 200
as `0ms`, and an average of 999999 nanoseconds is printed as `0ms`. -/
theorem writeSummary_zero_average_prints_marker :
    (performAll emptyMetrics [.response 200 true 0]).ResponseTimes = [0] ∧
    (writeSummary (performAll emptyMetrics [.response 200 true 0])).map
        (fun sm => (sm.averageResponseTime, sm.averageLine)) =
      some (0, "- Average: - ms\n") ∧
    (writeSummary (performAll emptyMetrics [.response 200 true 0])).map
        (fun sm => sm.averageLine) ≠ some (numericLine 0) ∧
    (writeSummary (performAll emptyMetrics [.response 200 true 0])).map
        (fun sm => (sm.shortestLine, sm.longestLine, sm.byCodeLines)) =
      some ("- Shortest: 0ms\n", "- Longest: 0ms\n", ["- 200: 0ms\n"]) ∧
    (writeSummary (performAll emptyMetrics [.response 200 true 999999])).map
        (fun sm => sm.averageLine) = some "- Average: 0ms\n" := by
  refine ⟨by decide, by decide, by decide, by decide, by decide⟩

/-- The average line of `writeSummary` for the metrics reached by any calls
of `performRequest` with at least one recorded duration, the durations being
non-negative with a sum that fits in 64 bits: the computed average is the sum
divided by the count (integer division, in nanoseconds); when the sum is at
least the count the line is the number of whole milliseconds of this average;
when the sum is smaller than the count the computed average is `0` and the
line is the one printed for a missing average. -/
theorem writeSummary_average_of_recorded (answers : List HttpAnswer)
    (hne : (performAll emptyMetrics answers).ResponseTimes ≠ [])
    (hpos : ∀ t ∈ (performAll emptyMetrics answers).ResponseTimes, 0 ≤ t)
    (hfit : (performAll emptyMetrics answers).ResponseTimes.sum ≤ maxInt64) :
    ∃ sm, writeSummary (performAll emptyMetrics answers) = some sm ∧
      sm.averageResponseTime =
        (performAll emptyMetrics answers).ResponseTimes.sum /
          (performAll emptyMetrics answers).ResponseTimes.length ∧
      ((performAll emptyMetrics answers).ResponseTimes.length ≤
          (performAll emptyMetrics answers).ResponseTimes.sum →
        sm.averageLine =
          numericLine ((performAll emptyMetrics answers).ResponseTimes.sum /
            (performAll emptyMetrics answers).ResponseTimes.length / 1000000) ∧
        (performAll emptyMetrics answers).ResponseTimes.sum /
            (performAll emptyMetrics answers).ResponseTimes.length / 1000000 =
          (performAll emptyMetrics answers).ResponseTimes.sum /
            ((performAll emptyMetrics answers).ResponseTimes.length * 1000000) ∧
        sm.averageLine ≠ noValueLine) ∧
      ((performAll emptyMetrics answers).ResponseTimes.sum <
          (performAll emptyMetrics answers).ResponseTimes.length →
        sm.averageLine = noValueLine) := by
  have inv := metricsInv_performAll answers emptyMetrics metricsInv_empty
  generalize performAll emptyMetrics answers = m at inv hne hpos hfit ⊢
  obtain ⟨avgs, havg, _⟩ := averageByCode_isSome m.ResponseTimesByCode inv.nonempty
  have hlen : m.ResponseTimes.length ≠ 0 := fun h0 => hne (List.length_eq_zero.mp h0)
  have hlenInt : (m.ResponseTimes.length : Int) ≠ 0 := by exact_mod_cast hlen
  have hlenPos : (0 : Int) < m.ResponseTimes.length := by
    have : 0 < m.ResponseTimes.length := Nat.pos_of_ne_zero hlen
    exact_mod_cast this
  have hsum0 : 0 ≤ m.ResponseTimes.sum := List.sum_nonneg hpos
  have htotal : (scanResponseTimes m.ResponseTimes).totalResponseTime = m.ResponseTimes.sum := by
    unfold scanResponseTimes
    rw [scan_total _ _ (le_refl _) hpos (by simpa using hfit)]
    simp
  have hdiv : Int.tdiv m.ResponseTimes.sum m.ResponseTimes.length =
      m.ResponseTimes.sum / m.ResponseTimes.length :=
    Int.tdiv_eq_ediv hsum0 (le_of_lt hlenPos)
  have hq0 : 0 ≤ m.ResponseTimes.sum / (m.ResponseTimes.length : Int) :=
    Int.ediv_nonneg hsum0 (le_of_lt hlenPos)
  have hqle : m.ResponseTimes.sum / (m.ResponseTimes.length : Int) ≤ m.ResponseTimes.sum :=
    Int.ediv_le_self _ hsum0
  have hwrap : wrapInt64 (m.ResponseTimes.sum / (m.ResponseTimes.length : Int)) =
      m.ResponseTimes.sum / (m.ResponseTimes.length : Int) :=
    wrapInt64_of_range _ hq0 (le_trans hqle hfit)
  have hms : milliseconds (m.ResponseTimes.sum / (m.ResponseTimes.length : Int)) =
      m.ResponseTimes.sum / (m.ResponseTimes.length : Int) / 1000000 := by
    unfold milliseconds
    exact Int.tdiv_eq_ediv hq0 (by decide)
  have hws : writeSummary m = some (renderSummary m (scanResponseTimes m.ResponseTimes)
      (m.ResponseTimes.sum / (m.ResponseTimes.length : Int)) avgs) := by
    unfold writeSummary
    simp only [ne_eq, hlen, not_false_eq_true, if_true, goDiv, if_neg hlenInt, havg, htotal,
      hdiv, hwrap]
  refine ⟨_, hws, rfl, ?_, ?_⟩
  · intro hle
    have hq1 : 0 < m.ResponseTimes.sum / (m.ResponseTimes.length : Int) := by
      have h1 : (1 : Int) ≤ m.ResponseTimes.sum / (m.ResponseTimes.length : Int) :=
        (Int.le_ediv_iff_mul_le hlenPos).mpr (by omega)
      omega
    have hqne : m.ResponseTimes.sum / (m.ResponseTimes.length : Int) ≠ 0 := ne_of_gt hq1
    have hline : (if m.ResponseTimes.sum / (m.ResponseTimes.length : Int) = 0 then noValueLine
        else numericLine (milliseconds (m.ResponseTimes.sum / (m.ResponseTimes.length : Int)))) =
        numericLine (m.ResponseTimes.sum / (m.ResponseTimes.length : Int) / 1000000) := by
      rw [if_neg hqne, hms]
    refine ⟨hline, intDiv_div _ _ _ hsum0 (le_of_lt hlenPos) (by decide), ?_⟩
    show (if _ then _ else _) ≠ _
    rw [hline]
    exact numericLine_ne_noValueLine _
  · intro hlt
    have hq : m.ResponseTimes.sum / (m.ResponseTimes.length : Int) = 0 :=
      Int.ediv_eq_zero_of_lt hsum0 hlt
    show (if _ then _ else _) = _
    rw [if_pos hq]


/-- Three recorded durations of 3 ms, 5 ms and 4.000001 ms give the line
`- Average: 4ms`. -/
theorem writeSummary_average_of_recorded_example :
    ∃ sm, writeSummary (performAll emptyMetrics
        [.response 200 true 3000000, .doError 5000000, .response 200 false 4000001]) = some sm ∧
      sm.averageResponseTime = 4000000 ∧ sm.averageLine = "- Average: 4ms\n" := by
  obtain ⟨sm, h1, h2, h3, _⟩ := writeSummary_average_of_recorded
    [.response 200 true 3000000, .doError 5000000, .response 200 false 4000001]
    (by decide) (by decide) (by decide)
  exact ⟨sm, h1, h2.trans (by decide), (h3 (by decide)).1.trans (by decide)⟩

/-- C7: for every metrics state without recorded duration, `writeSummary`
prints the average as the marker `- Average: - ms`, which is not the line of
any number (in particular not of `0`), and it performs no division: it does
not panic, the average stays `0` and no average by code is computed. -/
theorem writeSummary_no_duration (metrics : TestMetrics) (hnone : metrics.ResponseTimes = []) :
    ∃ sm, writeSummary metrics = some sm ∧
      sm.averageLine = noValueLine ∧
      (∀ ms, sm.averageLine ≠ numericLine ms) ∧
      sm.averageResponseTime = 0 ∧
      sm.averageResponseTimeByCode = [] ∧
      sm.byCodeLines = [] := by
  have hws : writeSummary metrics =
      some (renderSummary metrics (scanResponseTimes metrics.ResponseTimes) 0 []) := by
    unfold writeSummary
    simp [hnone]
  refine ⟨_, hws, rfl, ?_, rfl, rfl, rfl⟩
  intro ms h
  exact numericLine_ne_noValueLine ms h.symm

/-- Witness of C7: the metrics of a run without request, and the metrics
after a call whose request could not be built. -/
theorem writeSummary_no_duration_witness :
    (∃ sm, writeSummary emptyMetrics = some sm ∧ sm.averageLine = "- Average: - ms\n") ∧
    (writeSummary (performAll emptyMetrics [.newRequestError])).map (fun sm => sm.averageLine) =
      some "- Average: - ms\n" := by
  obtain ⟨sm, h1, h2, _⟩ := writeSummary_no_duration emptyMetrics rfl
  exact ⟨⟨sm, h1, h2⟩, by decide⟩

/-- C9: for the metrics reached by any calls of `performRequest` with at
least one recorded duration, all durations being non-negative values of
`time.Duration`, the shortest response time computed by `writeSummary` is the
minimum of the recorded durations and the longest is their maximum: each of
them is a recorded duration, every recorded duration lies between them, and
the shortest is at most the longest. -/
theorem shortest_longest_are_min_max (answers : List HttpAnswer)
    (hne : (performAll emptyMetrics answers).ResponseTimes ≠ [])
    (hrange : ∀ t ∈ (performAll emptyMetrics answers).ResponseTimes, 0 ≤ t ∧ t ≤ maxInt64) :
    ∃ sm, writeSummary (performAll emptyMetrics answers) = some sm ∧
      sm.shortestResponse ∈ (performAll emptyMetrics answers).ResponseTimes ∧
      sm.longestResponse ∈ (performAll emptyMetrics answers).ResponseTimes ∧
      (∀ t ∈ (performAll emptyMetrics answers).ResponseTimes,
        sm.shortestResponse ≤ t ∧ t ≤ sm.longestResponse) ∧
      sm.shortestResponse ≤ sm.longestResponse := by
  have inv := metricsInv_performAll answers emptyMetrics metricsInv_empty
  generalize performAll emptyMetrics answers = m at inv hne hrange ⊢
  obtain ⟨avgs, havg, _⟩ := averageByCode_isSome m.ResponseTimesByCode inv.nonempty
  have hlen : m.ResponseTimes.length ≠ 0 := fun h0 => hne (List.length_eq_zero.mp h0)
  have hlenInt : (m.ResponseTimes.length : Int) ≠ 0 := by exact_mod_cast hlen
  have hws : writeSummary m = some (renderSummary m (scanResponseTimes m.ResponseTimes)
      (wrapInt64 (Int.tdiv (scanResponseTimes m.ResponseTimes).totalResponseTime
        m.ResponseTimes.length)) avgs) := by
    unfold writeSummary
    simp only [ne_eq, hlen, not_false_eq_true, if_true, goDiv, if_neg hlenInt, havg]
  obtain ⟨t0, ht0⟩ := List.exists_mem_of_ne_nil _ hne
  obtain ⟨_, hs2, hs3⟩ := scan_shortest m.ResponseTimes
    { totalResponseTime := 0, shortestResponse := maxInt64, longestResponse := 0 }
  obtain ⟨_, hl2, hl3⟩ := scan_longest m.ResponseTimes
    { totalResponseTime := 0, shortestResponse := maxInt64, longestResponse := 0 }
  have hshort : (scanResponseTimes m.ResponseTimes).shortestResponse ∈ m.ResponseTimes := by
    rcases hs3 with h | h
    · have h1 := hs2 t0 ht0
      have h2 := (hrange t0 ht0).2
      have heq : (scanResponseTimes m.ResponseTimes).shortestResponse = t0 := by
        unfold scanResponseTimes
        rw [h] at h1 ⊢
        exact le_antisymm h1 h2
      rw [heq]; exact ht0
    · exact h
  have hlong : (scanResponseTimes m.ResponseTimes).longestResponse ∈ m.ResponseTimes := by
    rcases hl3 with h | h
    · have h1 := hl2 t0 ht0
      have h2 := (hrange t0 ht0).1
      have heq : (scanResponseTimes m.ResponseTimes).longestResponse = t0 := by
        unfold scanResponseTimes
        rw [h] at h1 ⊢
        exact le_antisymm h2 h1
      rw [heq]; exact ht0
    · exact h
  refine ⟨_, hws, hshort, hlong, fun t ht => ⟨hs2 t ht, hl2 t ht⟩, ?_⟩
  exact le_trans (hs2 t0 ht0) (hl2 t0 ht0)

/-- Witness of C9: the durations 3 ms, 5 ms and 4.000001 ms. -/
theorem shortest_longest_are_min_max_witness :
    ∃ sm, writeSummary (performAll emptyMetrics
        [.response 200 true 3000000, .doError 5000000, .response 200 false 4000001]) = some sm ∧
      sm.shortestResponse ≤ sm.longestResponse ∧
      (3000000 : Int) ≤ sm.longestResponse ∧ sm.shortestResponse ≤ (5000000 : Int) := by
  obtain ⟨sm, h1, _, _, h4, h5⟩ := shortest_longest_are_min_max
    [.response 200 true 3000000, .doError 5000000, .response 200 false 4000001]
    (by decide) (by decide)
  exact ⟨sm, h1, h5, (h4 3000000 (by decide)).2, (h4 5000000 (by decide)).1⟩


end PingKong
